import Mathlib

/-!
Packet framing and connection bookkeeping of `server/server.h`.

A shallow embedding of the inline code of `server.h`: the two `BinaryPacket`
constructors, `BinaryPacket::VGetData`, `BinaryPacket::VGetSize`,
`BinaryPacket::MemCpy` with its virtual call of `VGetSize`, the `HTTPPacket`
accessors, and the inline members of
`NetSocket` (`VHasOutput`, `VTimeOut`, `HandleException`, `SetTimeOut`).

Memory is modelled flat: a `char*` is the memory seen from the pointer, so a
store that leaves the allocated array is visible as a change of a cell outside
`0 .. len-1`.  Machine integers are natural numbers reduced modulo `2^w`.
-/

namespace GameServer

/-! Target parameters -/

/-- One `char` of storage, as an unsigned value `0 .. 255`. -/
abbrev Byte := Fin 256

/-- The low eight bits of a number, as a byte. -/
def byteOf (x : Nat) : Byte := ⟨x % 256, Nat.mod_lt x (by decide)⟩

/-- What the header leaves to the build: host byte order, the width of `size_t`
(32 or 64 bits), and whether `NDEBUG` is defined, in which case `assert(e)` of
`<assert.h>` expands to nothing. -/
structure Platform where
  littleEndian : Bool
  size64 : Bool
  ndebug : Bool

/-- Number of values of `size_t`: `2^64` or `2^32`. -/
def Platform.sizeMod (pf : Platform) : Nat :=
  if pf.size64 then 18446744073709551616 else 4294967296

/-- Number of values of `u_long` (the Winsock 32-bit unsigned long). -/
def ulongMod : Nat := 4294967296

/-- The value of `sizeof(u_long)`. -/
def sizeofULong : Nat := 4

/-- Conversion of a signed `int` to `size_t` (value modulo `2^w`). -/
def Platform.toSizeT (pf : Platform) (d : Int) : Nat :=
  (d % (pf.sizeMod : Int)).toNat

/-! Flat memory -/

/-- The heap block behind `char *m_data`: `len` is the number of chars obtained
from `new char[len]`, `cell i` is the content of the memory cell `m_data + i`
(cells outside `0 .. len-1` are memory that does not belong to the array). -/
structure Block where
  len : Nat
  cell : Int → Byte

/-- A `char const*` argument: `p i` is the byte read at `p + i`. -/
abbrev CharPtr := Nat → Byte

/-- The expression `new char[n]`: a block of `n` chars whose content, like that of
all the memory around it, is whatever `heap` held. -/
def newCharArray (heap : Int → Byte) (n : Nat) : Block := ⟨n, heap⟩

/-- One store `m_data[i] = v`. -/
def Block.poke (b : Block) (i : Int) (v : Byte) : Block :=
  { b with cell := fun j => if j = i then v else b.cell j }

/-- The call `memcpy(m_data + dst, src, n)`: byte `k` of the source goes to cell `dst + k`. -/
def memcpy (b : Block) (dst : Int) (src : CharPtr) : Nat → Block
  | 0 => b
  | n + 1 => (memcpy b dst src n).poke (dst + (n : Int)) (src n)

/-- The call `memset(m_data + dst, v, n)`. -/
def memset (b : Block) (dst : Int) (v : Byte) : Nat → Block
  | 0 => b
  | n + 1 => (memset b dst v n).poke (dst + (n : Int)) v

/-- The chars of the allocated array, first to last. -/
def Block.bytes (b : Block) : List Byte :=
  (List.range b.len).map (fun (i : Nat) => b.cell (i : Int))

/-- The memory seen from `m_data + off`, as a `char const*`. -/
def Block.ptr (b : Block) (off : Nat) : CharPtr :=
  fun i => b.cell ((off + i : Nat) : Int)

/-- The first `n` bytes read through a pointer. -/
def bytesAt (p : CharPtr) (n : Nat) : List Byte :=
  (List.range n).map p

/-! Byte order -/

/-- Reversal of the four bytes of a 32-bit value. -/
def bswap32 (x : Nat) : Nat :=
  (x % 256) * 16777216 + (x / 256 % 256) * 65536 + (x / 65536 % 256) * 256 + x / 16777216 % 256

/-- Winsock `htonl`: host to network (big-endian) order on a `u_long`. -/
def htonl (pf : Platform) (x : Nat) : Nat :=
  if pf.littleEndian then bswap32 (x % ulongMod) else x % ulongMod

/-- Winsock `ntohl`: network to host order on a `u_long`. -/
def ntohl (pf : Platform) (x : Nat) : Nat :=
  if pf.littleEndian then bswap32 (x % ulongMod) else x % ulongMod

/-- The store `*(u_long*)m_data = v` in host byte order. -/
def storeULong (pf : Platform) (b : Block) (v : Nat) : Block :=
  if pf.littleEndian then
    (((b.poke 0 (byteOf v)).poke 1 (byteOf (v / 256))).poke 2 (byteOf (v / 65536))).poke 3
      (byteOf (v / 16777216))
  else
    (((b.poke 0 (byteOf (v / 16777216))).poke 1 (byteOf (v / 65536))).poke 2
      (byteOf (v / 256))).poke 3 (byteOf v)

/-- The load `*(u_long*)m_data` in host byte order. -/
def loadULong (pf : Platform) (b : Block) : Nat :=
  if pf.littleEndian then
    (b.cell 0).val + (b.cell 1).val * 256 + (b.cell 2).val * 65536 + (b.cell 3).val * 16777216
  else
    (b.cell 3).val + (b.cell 2).val * 256 + (b.cell 1).val * 65536 + (b.cell 0).val * 16777216

/-- The four bytes of the big-endian encoding of a 32-bit value, most significant first. -/
def bigEndian4 (x : Nat) : List Byte :=
  [byteOf (x / 16777216), byteOf (x / 65536), byteOf (x / 256), byteOf x]

/-! `BinaryPacket` -/

/-- The class `BinaryPacket`: its only data member is `char *m_data`. -/
structure BinaryPacket where
  m_data : Block

/-- The constructor `BinaryPacket(char const *const data, u_long size)`.
`size + sizeof(u_long)` is computed in `size_t`; the argument of `htonl` is
converted to `u_long` inside `htonl`; `assert(m_data)` holds, since `new` does not
return a null pointer. -/
def BinaryPacket.ofData (pf : Platform) (heap : Int → Byte) (data : CharPtr) (size : Nat) :
    BinaryPacket :=
  let m_data := newCharArray heap ((size + sizeofULong) % pf.sizeMod)
  let m_data := storeULong pf m_data (htonl pf ((size + sizeofULong) % pf.sizeMod))
  ⟨memcpy m_data (sizeofULong : Int) data size⟩

/-- The constructor `BinaryPacket(u_long size)`. -/
def BinaryPacket.ofSize (pf : Platform) (heap : Int → Byte) (size : Nat) : BinaryPacket :=
  let m_data := newCharArray heap ((size + sizeofULong) % pf.sizeMod)
  let m_data := memset m_data (sizeofULong : Int) 0 size
  ⟨storeULong pf m_data (htonl pf ((size + sizeofULong) % pf.sizeMod))⟩

/-- The accessor `BinaryPacket::VGetData`, which returns `m_data`. -/
def BinaryPacket.VGetData (p : BinaryPacket) : CharPtr := p.m_data.ptr 0

/-- The accessor `BinaryPacket::VGetSize`, which returns `ntohl(*(u_long *)m_data)`. -/
def BinaryPacket.VGetSize (pf : Platform) (p : BinaryPacket) : Nat :=
  ntohl pf (loadULong pf p.m_data)

/-! `HTTPPacket` -/

/-- The class `HTTPPacket`, derived from `BinaryPacket` without new data members. -/
structure HTTPPacket extends BinaryPacket

/-- The scan of C `strlen` from index `i`, looking at no more than `fuel` bytes. -/
def strlenFrom (s : CharPtr) (i : Nat) : Nat → Option Nat
  | 0 => none
  | fuel + 1 => if s i = 0 then some i else strlenFrom s (i + 1) fuel

/-- C `strlen`: the index of the first zero byte; the scan is bounded by the size of
the address space. -/
def strlen (pf : Platform) (s : CharPtr) : Option Nat :=
  strlenFrom s 0 pf.sizeMod

/-- The accessor `HTTPPacket::VGetData`, which returns `m_data+4`. -/
def HTTPPacket.VGetData (p : HTTPPacket) : CharPtr := p.m_data.ptr 4

/-- The accessor `HTTPPacket::VGetSize`, which returns `strlen(m_data+4)` converted to
`u_long`. -/
def HTTPPacket.VGetSize (pf : Platform) (p : HTTPPacket) : Option Nat :=
  (strlen pf (p.m_data.ptr 4)).map (fun n => n % ulongMod)

/-! Virtual dispatch and `MemCpy` -/

/-- The dynamic class of a packet object; it selects the override that a virtual call
runs.  `TextPacket` overrides `VGetType` only, `HTTPPacket` overrides `VGetData` and
`VGetSize` as well. -/
inductive PacketClass where
  | binaryPacket : PacketClass
  | textPacket : PacketClass
  | httpPacket : PacketClass

/-- The virtual call `VGetSize()` on an object of dynamic class `c` whose `BinaryPacket`
part is `p`: `HTTPPacket::VGetSize` for an `HTTPPacket`, `BinaryPacket::VGetSize` for the
two classes that do not override it.  The result is `none` when the `strlen` of the
override finds no terminator. -/
def virtualVGetSize (pf : Platform) (c : PacketClass) (p : BinaryPacket) : Option Nat :=
  match c with
  | PacketClass.httpPacket => HTTPPacket.VGetSize pf ⟨p⟩
  | PacketClass.textPacket => some (p.VGetSize pf)
  | PacketClass.binaryPacket => some (p.VGetSize pf)

/-- How a member function that contains an `assert` ends: it returns, or the
assertion fails and `abort` ends the process before the next statement runs, or the
asserted expression has no value (the `strlen` behind `VGetSize()` met no terminator). -/
inductive Outcome (α : Type) where
  | returned (a : α) : Outcome α
  | assertFailed : Outcome α
  | noValue : Outcome α

/-- The expression inside the `assert` of `MemCpy`,
`size + destOffset <= VGetSize()-sizeof(u_long)`: `VGetSize()` is a virtual call on the
object, `destOffset` is converted to `size_t`, and both sides are computed in `size_t`. -/
def BinaryPacket.memCpyCheck (pf : Platform) (c : PacketClass) (p : BinaryPacket) (size : Nat)
    (destOffset : Int) : Option Bool :=
  (virtualVGetSize pf c p).map (fun v =>
    decide ((size + pf.toSizeT destOffset) % pf.sizeMod
      ≤ (v + pf.sizeMod - sizeofULong) % pf.sizeMod))

/-- The member `BinaryPacket::MemCpy(char const * const data, size_t size, int destOffset)`,
called on an object of dynamic class `c`; the derived classes inherit it.  With `NDEBUG`
the asserted expression is not evaluated. -/
def BinaryPacket.MemCpy (pf : Platform) (c : PacketClass) (p : BinaryPacket) (data : CharPtr)
    (size : Nat) (destOffset : Int) : Outcome BinaryPacket :=
  if pf.ndebug = true then
    Outcome.returned ⟨memcpy p.m_data (destOffset + (sizeofULong : Int)) data size⟩
  else
    match p.memCpyCheck pf c size destOffset with
    | none => Outcome.noValue
    | some false => Outcome.assertFailed
    | some true =>
      Outcome.returned ⟨memcpy p.m_data (destOffset + (sizeofULong : Int)) data size⟩

/-! `NetSocket` -/

/-- The data members of `NetSocket`. -/
structure NetSocket where
  m_sock : Nat
  m_id : Int
  m_delete_flag : Int
  m_OutList : List BinaryPacket
  m_InList : List BinaryPacket
  m_timeout : Nat
  m_ipaddr : Nat
  m_bBinaryProtocol : Bool
  m_recvBuf : List Byte
  m_responseBuf : List Byte
  m_recvOfs : Nat
  m_recvBegin : Nat
  m_sendOfs : Int
  m_internal : Int
  m_timeCreated : Int

/-- The member `VHasOutput`, which returns `!m_OutList.empty()` and leaves the object as it is. -/
def NetSocket.VHasOutput (s : NetSocket) : Int × NetSocket :=
  (if s.m_OutList.isEmpty then 0 else 1, s)

/-- The member `VTimeOut`, `m_timeout = 0`. -/
def NetSocket.VTimeOut (s : NetSocket) : NetSocket :=
  { s with m_timeout := 0 }

/-- The member `HandleException`, `m_delete_flag |= 1`. -/
def NetSocket.HandleException (s : NetSocket) : NetSocket :=
  { s with m_delete_flag := Int.lor s.m_delete_flag 1 }

/-- The member `SetTimeOut(unsigned int ms)`, `m_timeout = timeGetTime() + ms` in
`unsigned int`; `now` is the value returned by `timeGetTime()`. -/
def NetSocket.SetTimeOut (s : NetSocket) (now : Nat) (ms : Nat) : NetSocket :=
  { s with m_timeout := (now + ms) % 4294967296 }

/-- The call `SetTimeOut()` with the default argument `45 * 1000`. -/
def NetSocket.SetTimeOutDefault (s : NetSocket) (now : Nat) : NetSocket :=
  s.SetTimeOut now (45 * 1000)

/-! Concrete values used in the examples -/

/-- The little-endian 32-bit Windows build with assertions compiled in. -/
def win32Debug : Platform := ⟨true, false, false⟩

/-- A heap filled with the byte `0xCD`. -/
def heapCD : Int → Byte := fun _ => 205

/-- A pointer to the four characters `PING` (followed by zero bytes). -/
def pingPtr : CharPtr := fun i => [80, 73, 78, 71].getD i 0

/-- The little-endian 32-bit Windows build with `NDEBUG` defined. -/
def win32Release : Platform := ⟨true, false, true⟩

/-- A pointer to a run of `0xFF` bytes. -/
def onesPtr : CharPtr := fun _ => 255

/-- A connection with the id 3, empty queues, and the bit of value 2 set in its removal flag. -/
def sampleSocket : NetSocket :=
  { m_sock := 7, m_id := 3, m_delete_flag := 2, m_OutList := [], m_InList := [],
    m_timeout := 1000, m_ipaddr := 2130706433, m_bBinaryProtocol := true,
    m_recvBuf := [], m_responseBuf := [], m_recvOfs := 0, m_recvBegin := 0,
    m_sendOfs := 0, m_internal := 0, m_timeCreated := 0 }

/-- An `HTTPPacket` whose array holds the placeholder `DE AD BE EF`, the text `OK` and the
terminator. -/
def httpOk : HTTPPacket :=
  ⟨⟨⟨7, fun j => [222, 173, 190, 239, 79, 75, 0].getD j.toNat 205⟩⟩⟩

/-- An `HTTPPacket` whose array holds the placeholder `00 00 00 0C`, the eight characters
`ABCDEFGH` and the terminator: the placeholder decodes to 12, the text is 8 long. -/
def httpEight : HTTPPacket :=
  ⟨⟨⟨13, fun j => [0, 0, 0, 12, 65, 66, 67, 68, 69, 70, 71, 72, 0].getD j.toNat 205⟩⟩⟩

/-! Memory lemmas -/

@[simp] theorem poke_len (b : Block) (i : Int) (v : Byte) : (b.poke i v).len = b.len := rfl

theorem poke_cell (b : Block) (i j : Int) (v : Byte) :
    (b.poke i v).cell j = if j = i then v else b.cell j := rfl

@[simp] theorem memcpy_len (b : Block) (dst : Int) (src : CharPtr) (n : Nat) :
    (memcpy b dst src n).len = b.len := by
  induction n with
  | zero => rfl
  | succ n ih => simpa [memcpy] using ih

/-- Cells inside the destination range receive the source byte. -/
theorem memcpy_cell_in (b : Block) (dst : Int) (src : CharPtr) (n : Nat) (j : Int)
    (h1 : dst ≤ j) (h2 : j < dst + (n : Int)) :
    (memcpy b dst src n).cell j = src (j - dst).toNat := by
  induction n with
  | zero => omega
  | succ n ih =>
    simp only [memcpy, poke_cell]
    by_cases h : j = dst + (n : Int)
    · have h3 : (j - dst).toNat = n := by omega
      rw [if_pos h, h3]
    · rw [if_neg h]
      exact ih (by omega)

/-- Cells outside the destination range keep their content. -/
theorem memcpy_cell_out (b : Block) (dst : Int) (src : CharPtr) (n : Nat) (j : Int)
    (h : j < dst ∨ dst + (n : Int) ≤ j) :
    (memcpy b dst src n).cell j = b.cell j := by
  induction n with
  | zero => rfl
  | succ n ih =>
    simp only [memcpy, poke_cell]
    have h1 : j ≠ dst + (n : Int) := by omega
    rw [if_neg h1]
    exact ih (by omega)

@[simp] theorem memset_len (b : Block) (dst : Int) (v : Byte) (n : Nat) :
    (memset b dst v n).len = b.len := by
  induction n with
  | zero => rfl
  | succ n ih => simpa [memset] using ih

theorem memset_cell_in (b : Block) (dst : Int) (v : Byte) (n : Nat) (j : Int)
    (h1 : dst ≤ j) (h2 : j < dst + (n : Int)) :
    (memset b dst v n).cell j = v := by
  induction n with
  | zero => omega
  | succ n ih =>
    simp only [memset, poke_cell]
    by_cases h : j = dst + (n : Int)
    · rw [if_pos h]
    · rw [if_neg h]
      exact ih (by omega)

theorem memset_cell_out (b : Block) (dst : Int) (v : Byte) (n : Nat) (j : Int)
    (h : j < dst ∨ dst + (n : Int) ≤ j) :
    (memset b dst v n).cell j = b.cell j := by
  induction n with
  | zero => rfl
  | succ n ih =>
    simp only [memset, poke_cell]
    have h1 : j ≠ dst + (n : Int) := by omega
    rw [if_neg h1]
    exact ih (by omega)

@[simp] theorem storeULong_len (pf : Platform) (b : Block) (v : Nat) :
    (storeULong pf b v).len = b.len := by
  unfold storeULong
  split <;> rfl

/-- A `u_long` store touches only the cells `0 .. 3`. -/
theorem storeULong_cell_other (pf : Platform) (b : Block) (v : Nat) (j : Int)
    (hj : j < 0 ∨ 4 ≤ j) : (storeULong pf b v).cell j = b.cell j := by
  have h0 : j ≠ 0 := by omega
  have h1 : j ≠ 1 := by omega
  have h2 : j ≠ 2 := by omega
  have h3 : j ≠ 3 := by omega
  unfold storeULong
  split <;> simp [poke_cell, h0, h1, h2, h3]

/-! Byte-order lemmas -/

@[simp] theorem byteOf_val (x : Nat) : (byteOf x).val = x % 256 := rfl

theorem byteOf_congr (x y : Nat) (h : x % 256 = y % 256) : byteOf x = byteOf y :=
  Fin.ext h

/-- Every 32-bit value is the sum of four base-256 digits. -/
theorem exists_digits (x : Nat) (hx : x < 4294967296) :
    ∃ a b c d : Nat, a < 256 ∧ b < 256 ∧ c < 256 ∧ d < 256 ∧
      x = a + 256 * b + 65536 * c + 16777216 * d := by
  have e1 : x / 65536 = x / 256 / 256 := by rw [Nat.div_div_eq_div_mul]
  have e2 : x / 16777216 = x / 256 / 256 / 256 := by
    rw [Nat.div_div_eq_div_mul, Nat.div_div_eq_div_mul]
  refine ⟨x % 256, x / 256 % 256, x / 65536 % 256, x / 16777216, ?_, ?_, ?_, ?_, ?_⟩ <;> omega

theorem bswap32_digits (a b c d : Nat) (ha : a < 256) (hb : b < 256) (hc : c < 256)
    (hd : d < 256) :
    bswap32 (a + 256 * b + 65536 * c + 16777216 * d) = d + 256 * c + 65536 * b + 16777216 * a := by
  unfold bswap32
  omega

theorem bswap32_lt (x : Nat) : bswap32 x < 4294967296 := by
  unfold bswap32
  omega

theorem ntohl_lt (pf : Platform) (x : Nat) : ntohl pf x < 4294967296 := by
  unfold ntohl ulongMod
  split
  · exact bswap32_lt _
  · exact Nat.mod_lt _ (by decide)

/-- The four base-256 digits of a digit sum. -/
theorem digit_facts (a b c d : Nat) (ha : a < 256) (hb : b < 256) (hc : c < 256)
    (hd : d < 256) :
    (a + 256 * b + 65536 * c + 16777216 * d) % 256 = a ∧
    (a + 256 * b + 65536 * c + 16777216 * d) / 256 % 256 = b ∧
    (a + 256 * b + 65536 * c + 16777216 * d) / 65536 % 256 = c ∧
    (a + 256 * b + 65536 * c + 16777216 * d) / 16777216 % 256 = d := by
  refine ⟨?_, ?_, ?_, ?_⟩ <;> omega

/-- Four consecutive stores at the cells `0 .. 3`. -/
theorem poke4_cells (b : Block) (v0 v1 v2 v3 : Byte) :
    ((((b.poke 0 v0).poke 1 v1).poke 2 v2).poke 3 v3).cell 0 = v0 ∧
    ((((b.poke 0 v0).poke 1 v1).poke 2 v2).poke 3 v3).cell 1 = v1 ∧
    ((((b.poke 0 v0).poke 1 v1).poke 2 v2).poke 3 v3).cell 2 = v2 ∧
    ((((b.poke 0 v0).poke 1 v1).poke 2 v2).poke 3 v3).cell 3 = v3 :=
  ⟨rfl, rfl, rfl, rfl⟩

/-- The cells `0 .. 3` after storing `htonl x` hold the big-endian digits of `x`. -/
theorem storeULong_htonl_cells (pf : Platform) (b : Block) (x : Nat) (hx : x < 4294967296) :
    (storeULong pf b (htonl pf x)).cell 0 = byteOf (x / 16777216) ∧
    (storeULong pf b (htonl pf x)).cell 1 = byteOf (x / 65536) ∧
    (storeULong pf b (htonl pf x)).cell 2 = byteOf (x / 256) ∧
    (storeULong pf b (htonl pf x)).cell 3 = byteOf x := by
  unfold storeULong htonl ulongMod
  rw [Nat.mod_eq_of_lt hx]
  cases pf.littleEndian
  · simp only [Bool.false_eq_true, if_false]
    exact poke4_cells b _ _ _ _
  · simp only [if_true]
    obtain ⟨a, b', c, d, ha, hb, hc, hd, rfl⟩ := exists_digits x hx
    obtain ⟨f0, f1, f2, f3⟩ := digit_facts a b' c d ha hb hc hd
    obtain ⟨g0, g1, g2, g3⟩ := digit_facts d c b' a hd hc hb ha
    rw [bswap32_digits a b' c d ha hb hc hd]
    obtain ⟨p0, p1, p2, p3⟩ := poke4_cells b (byteOf (d + 256 * c + 65536 * b' + 16777216 * a))
      (byteOf ((d + 256 * c + 65536 * b' + 16777216 * a) / 256))
      (byteOf ((d + 256 * c + 65536 * b' + 16777216 * a) / 65536))
      (byteOf ((d + 256 * c + 65536 * b' + 16777216 * a) / 16777216))
    rw [p0, p1, p2, p3]
    refine ⟨?_, ?_, ?_, ?_⟩ <;> apply byteOf_congr
    · rw [g0, f3]
    · rw [g1, f2]
    · rw [g2, f1]
    · rw [g3, f0]

/-- Reading back, through `ntohl`, a block whose first four cells are the big-endian digits. -/
theorem ntohl_loadULong_of_cells (pf : Platform) (b : Block) (x : Nat) (hx : x < 4294967296)
    (h0 : b.cell 0 = byteOf (x / 16777216)) (h1 : b.cell 1 = byteOf (x / 65536))
    (h2 : b.cell 2 = byteOf (x / 256)) (h3 : b.cell 3 = byteOf x) :
    ntohl pf (loadULong pf b) = x := by
  unfold ntohl loadULong ulongMod
  rw [h0, h1, h2, h3]
  obtain ⟨a, b', c, d, ha, hb, hc, hd, rfl⟩ := exists_digits x hx
  obtain ⟨f0, f1, f2, f3⟩ := digit_facts a b' c d ha hb hc hd
  simp only [byteOf_val, f0, f1, f2, f3]
  cases pf.littleEndian
  · simp only [Bool.false_eq_true, if_false]
    omega
  · simp only [if_true]
    have e4 : (d + c * 256 + b' * 65536 + a * 16777216) % 4294967296
        = d + 256 * c + 65536 * b' + 16777216 * a := by omega
    rw [e4, bswap32_digits d c b' a hd hc hb ha]

theorem sizeMod_ge (pf : Platform) : 4294967296 ≤ pf.sizeMod := by
  unfold Platform.sizeMod
  split <;> omega

theorem size_add_mod (pf : Platform) (n : Nat) (h : n + 4 < 4294967296) :
    (n + sizeofULong) % pf.sizeMod = n + 4 := by
  have := sizeMod_ge pf
  unfold sizeofULong
  exact Nat.mod_eq_of_lt (by omega)

/-- The state of the block after `BinaryPacket(data, n)`. -/
theorem ofData_cells (pf : Platform) (heap : Int → Byte) (data : CharPtr) (n : Nat)
    (h : n + 4 < 4294967296) :
    (BinaryPacket.ofData pf heap data n).m_data.len = n + 4 ∧
    (BinaryPacket.ofData pf heap data n).m_data.cell 0 = byteOf ((n + 4) / 16777216) ∧
    (BinaryPacket.ofData pf heap data n).m_data.cell 1 = byteOf ((n + 4) / 65536) ∧
    (BinaryPacket.ofData pf heap data n).m_data.cell 2 = byteOf ((n + 4) / 256) ∧
    (BinaryPacket.ofData pf heap data n).m_data.cell 3 = byteOf (n + 4) ∧
    ∀ i : Nat, i < n →
      (BinaryPacket.ofData pf heap data n).m_data.cell ((4 + i : Nat) : Int) = data i := by
  simp only [BinaryPacket.ofData, size_add_mod pf n h]
  obtain ⟨c0, c1, c2, c3⟩ := storeULong_htonl_cells pf (newCharArray heap (n + 4)) (n + 4) h
  have hs : ((sizeofULong : Nat) : Int) = 4 := rfl
  refine ⟨?_, ?_, ?_, ?_, ?_, ?_⟩
  · simp [newCharArray]
  · rw [memcpy_cell_out _ _ _ _ _ (by omega), c0]
  · rw [memcpy_cell_out _ _ _ _ _ (by omega), c1]
  · rw [memcpy_cell_out _ _ _ _ _ (by omega), c2]
  · rw [memcpy_cell_out _ _ _ _ _ (by omega), c3]
  · intro i hi
    rw [memcpy_cell_in _ _ _ _ _ (by omega) (by omega)]
    congr 1
    omega

/-- The state of the block after `BinaryPacket(n)`. -/
theorem ofSize_cells (pf : Platform) (heap : Int → Byte) (n : Nat) (h : n + 4 < 4294967296) :
    (BinaryPacket.ofSize pf heap n).m_data.len = n + 4 ∧
    (BinaryPacket.ofSize pf heap n).m_data.cell 0 = byteOf ((n + 4) / 16777216) ∧
    (BinaryPacket.ofSize pf heap n).m_data.cell 1 = byteOf ((n + 4) / 65536) ∧
    (BinaryPacket.ofSize pf heap n).m_data.cell 2 = byteOf ((n + 4) / 256) ∧
    (BinaryPacket.ofSize pf heap n).m_data.cell 3 = byteOf (n + 4) ∧
    ∀ i : Nat, i < n →
      (BinaryPacket.ofSize pf heap n).m_data.cell ((4 + i : Nat) : Int) = 0 := by
  simp only [BinaryPacket.ofSize, size_add_mod pf n h]
  obtain ⟨c0, c1, c2, c3⟩ :=
    storeULong_htonl_cells pf (memset (newCharArray heap (n + 4)) (sizeofULong : Int) 0 n)
      (n + 4) h
  have hs : ((sizeofULong : Nat) : Int) = 4 := rfl
  refine ⟨?_, c0, c1, c2, c3, ?_⟩
  · simp [newCharArray]
  · intro i hi
    rw [storeULong_cell_other _ _ _ _ (by omega), memset_cell_in _ _ _ _ _ (by omega) (by omega)]

/-- Both constructors allocate at most `2^32 - 1 + 4` chars for a `u_long` size. -/
theorem ctor_len_le (pf : Platform) (heap : Int → Byte) (data : CharPtr) (size : Nat)
    (h : size < 4294967296) :
    (BinaryPacket.ofData pf heap data size).m_data.len ≤ 4294967299 ∧
    (BinaryPacket.ofSize pf heap size).m_data.len ≤ 4294967299 := by
  have hb : (size + sizeofULong) % pf.sizeMod ≤ 4294967299 :=
    le_trans (Nat.mod_le _ _) (by unfold sizeofULong; omega)
  constructor
  · simpa [BinaryPacket.ofData, newCharArray] using hb
  · simpa [BinaryPacket.ofSize, newCharArray] using hb

/-- The array content is the list of its cells. -/
theorem bytes_getElem (b : Block) (i : Nat) (h : i < b.bytes.length) :
    b.bytes[i] = b.cell (i : Int) := by
  simp only [Block.bytes, List.getElem_map, List.getElem_range]

theorem bytes_getElem_opt (b : Block) (i : Nat) (h : i < b.len) :
    b.bytes[i]? = some (b.cell (i : Int)) := by
  simp only [Block.bytes, List.getElem?_map, List.getElem?_range h, Option.map_some']

@[simp] theorem bytes_length (b : Block) : b.bytes.length = b.len := by
  simp only [Block.bytes, List.length_map, List.length_range]

/-- The scan stops at the first zero byte when the fuel reaches it. -/
theorem strlenFrom_first_zero (s : CharPtr) (k : Nat) :
    ∀ (i fuel : Nat), (∀ j, j < k → s (i + j) ≠ 0) → s (i + k) = 0 → k < fuel →
      strlenFrom s i fuel = some (i + k) := by
  induction k with
  | zero =>
    intro i fuel _ hz hf
    obtain ⟨f, rfl⟩ : ∃ f, fuel = f + 1 := ⟨fuel - 1, by omega⟩
    have hz0 : s i = 0 := by simpa using hz
    simp [strlenFrom, hz0]
  | succ k ih =>
    intro i fuel hnz hz hf
    obtain ⟨f, rfl⟩ : ∃ f, fuel = f + 1 := ⟨fuel - 1, by omega⟩
    have h0 : s i ≠ 0 := by simpa using hnz 0 (by omega)
    have hrec := ih (i + 1) f
      (fun j hj => by
        have := hnz (j + 1) (by omega)
        rwa [show i + 1 + j = i + (j + 1) by omega])
      (by rwa [show i + 1 + k = i + (k + 1) by omega]) (by omega)
    simp only [strlenFrom, if_neg h0, hrec]
    congr 1
    omega

/-- The `or` of an `int` with 1 is never zero. -/
theorem lor_one_ne_zero (f : Int) : Int.lor f 1 ≠ 0 := by
  intro h
  have h1 := Int.testBit_lor f 1 0
  rw [h] at h1
  have h2 : Int.testBit 1 0 = true := by decide
  have h3 : Int.testBit 0 0 = false := by decide
  rw [h2, h3] at h1
  simp at h1

/-- Setting the bit 0 twice is setting it once. -/
theorem lor_one_lor_one (f : Int) : Int.lor (Int.lor f 1) 1 = Int.lor f 1 := by
  cases f with
  | ofNat m =>
    show ((((m ||| 1 : Nat) ||| 1 : Nat) : Nat) : Int) = ((m ||| 1 : Nat) : Int)
    congr 1
    apply Nat.eq_of_testBit_eq
    intro i
    simp
  | negSucc m =>
    show Int.negSucc (Nat.ldiff (Nat.ldiff m 1) 1) = Int.negSucc (Nat.ldiff m 1)
    congr 1
    apply Nat.eq_of_testBit_eq
    intro i
    simp [Nat.testBit_ldiff]

/-- A value returned by the virtual `VGetSize()` is a `u_long`. -/
theorem virtualVGetSize_lt (pf : Platform) (c : PacketClass) (p : BinaryPacket) (v : Nat)
    (hv : virtualVGetSize pf c p = some v) : v < 4294967296 := by
  cases c with
  | binaryPacket =>
    have e : p.VGetSize pf = v := Option.some.inj hv
    rw [← e]
    exact ntohl_lt pf _
  | textPacket =>
    have e : p.VGetSize pf = v := Option.some.inj hv
    rw [← e]
    exact ntohl_lt pf _
  | httpPacket =>
    simp only [virtualVGetSize, HTTPPacket.VGetSize, Option.map_eq_some'] at hv
    obtain ⟨n, _, rfl⟩ := hv
    exact Nat.mod_lt _ (by decide)

/-- The `assert` of `MemCpy` compares the exact values when neither side wraps: the
virtual `VGetSize()` returns a value of at least 4 and `size + destOffset` lies in the
range of `size_t`. -/
theorem memCpyCheck_exact (pf : Platform) (c : PacketClass) (p : BinaryPacket) (size : Nat)
    (destOffset : Int) (v : Nat) (hv : virtualVGetSize pf c p = some v) (hsz : 4 ≤ v)
    (hlo : 0 ≤ (size : Int) + destOffset)
    (hfit : (size : Int) + destOffset < (pf.sizeMod : Int)) :
    p.memCpyCheck pf c size destOffset
      = some (decide ((size : Int) + destOffset ≤ (v : Int) - 4)) := by
  have hvlt : v < 4294967296 := virtualVGetSize_lt pf c p v hv
  have hM := sizeMod_ge pf
  have hMpos : (0 : Int) < (pf.sizeMod : Int) := by omega
  have e1 : (((size + pf.toSizeT destOffset) % pf.sizeMod : Nat) : Int)
      = (size : Int) + destOffset := by
    unfold Platform.toSizeT
    rw [Int.natCast_mod, Int.natCast_add,
      Int.toNat_of_nonneg (Int.emod_nonneg _ (ne_of_gt hMpos)), Int.add_emod_emod]
    exact Int.emod_eq_of_lt hlo hfit
  have e2 : (v + pf.sizeMod - sizeofULong) % pf.sizeMod = v - 4 := by
    have e3 : v + pf.sizeMod - sizeofULong = (v - 4) + pf.sizeMod := by
      unfold sizeofULong
      omega
    rw [e3, Nat.add_mod_right]
    exact Nat.mod_eq_of_lt (by omega)
  unfold BinaryPacket.memCpyCheck
  rw [hv, Option.map_some', e2]
  congr 1
  rw [decide_eq_decide]
  omega

/-- A store through `MemCpy` with a non-negative offset leaves the cells `0 .. 3`, and so the
declared size, as they are. -/
theorem VGetSize_memcpy_payload (pf : Platform) (b : Block) (data : CharPtr) (size : Nat)
    (d : Int) (hd : 0 ≤ d) :
    BinaryPacket.VGetSize pf ⟨memcpy b (d + (sizeofULong : Int)) data size⟩
      = BinaryPacket.VGetSize pf ⟨b⟩ := by
  have hs : ((sizeofULong : Nat) : Int) = 4 := rfl
  unfold BinaryPacket.VGetSize loadULong
  simp only
  rw [memcpy_cell_out _ _ _ _ 0 (by omega), memcpy_cell_out _ _ _ _ 1 (by omega),
    memcpy_cell_out _ _ _ _ 2 (by omega), memcpy_cell_out _ _ _ _ 3 (by omega)]

/-- An accepted patch with a non-negative offset and no wrap in `size + destOffset` is
confined to the payload of a packet whose `VGetSize()` is at least 4 and at most the array
length: it returns, writes `data` to the cells `4 + destOffset .. 4 + destOffset + size - 1`,
which lie inside the array, and changes no other cell, so the length field stays the same. -/
theorem MemCpy_confined_nonneg (pf : Platform) (c : PacketClass) (p : BinaryPacket)
    (data : CharPtr) (size : Nat) (d : Int) (v : Nat) (hd : 0 ≤ d)
    (hfit : (size : Int) + d < (pf.sizeMod : Int))
    (hv : virtualVGetSize pf c p = some v) (hsz : 4 ≤ v) (hwf : v ≤ p.m_data.len)
    (hcheck : p.memCpyCheck pf c size d = some true) :
    ∃ q, p.MemCpy pf c data size d = Outcome.returned q ∧
      q.m_data.len = p.m_data.len ∧
      d + 4 + (size : Int) ≤ (p.m_data.len : Int) ∧
      (∀ i : Nat, i < size → q.m_data.cell (d + 4 + (i : Int)) = data i) ∧
      (∀ j : Int, j < d + 4 ∨ d + 4 + (size : Int) ≤ j → q.m_data.cell j = p.m_data.cell j) ∧
      q.VGetSize pf = p.VGetSize pf := by
  have hs : ((sizeofULong : Nat) : Int) = 4 := rfl
  have hex : (size : Int) + d ≤ (v : Int) - 4 := by
    have e := memCpyCheck_exact pf c p size d v hv hsz (by omega) hfit
    rw [hcheck] at e
    exact of_decide_eq_true (Option.some.inj e).symm
  refine ⟨⟨memcpy p.m_data (d + (sizeofULong : Int)) data size⟩, ?_, ?_, ?_, ?_, ?_, ?_⟩
  · unfold BinaryPacket.MemCpy
    rw [hcheck]
    split <;> rfl
  · simp
  · omega
  · intro i hi
    rw [memcpy_cell_in _ _ _ _ _ (by omega) (by omega)]
    congr 1
    omega
  · intro j hj
    exact memcpy_cell_out _ _ _ _ _ (by omega)
  · exact VGetSize_memcpy_payload pf p.m_data data size d hd

/-- The check of `MemCpy` follows the dynamic class.  On the `HTTPPacket` holding the
placeholder `00 00 00 0C` and a text of 8 characters, `VGetSize()` is 8, not 12: the call
`MemCpy(data, 5, 0)` stops at the assertion (5 exceeds 8 - 4), where the same bytes seen as
a plain `BinaryPacket` accept it (5 does not exceed 12 - 4). -/
theorem MemCpy_follows_dynamic_class :
    virtualVGetSize win32Debug PacketClass.httpPacket httpEight.toBinaryPacket = some 8 ∧
    virtualVGetSize win32Debug PacketClass.binaryPacket httpEight.toBinaryPacket = some 12 ∧
    httpEight.toBinaryPacket.MemCpy win32Debug PacketClass.httpPacket onesPtr 5 0
      = Outcome.assertFailed ∧
    httpEight.toBinaryPacket.memCpyCheck win32Debug PacketClass.binaryPacket 5 0
      = some true ∧
    httpEight.toBinaryPacket.memCpyCheck win32Debug PacketClass.httpPacket 4 0
      = some true :=
  ⟨by decide, by decide, rfl, by decide, by decide⟩

/-! The claims -/

/-- C1 (size round trip): for a payload of `n` bytes with `n + 4 < 2^32`, the packet
built by `BinaryPacket(data, n)` reports `VGetSize() = n + 4`: decoding the stored
length with `ntohl` gives back the value the constructor encoded with `htonl`. -/
theorem C1_size_round_trip (pf : Platform) (heap : Int → Byte) (data : CharPtr) (n : Nat)
    (h : n + 4 < 4294967296) :
    (BinaryPacket.ofData pf heap data n).VGetSize pf = n + 4 := by
  obtain ⟨_, c0, c1, c2, c3, _⟩ := ofData_cells pf heap data n h
  exact ntohl_loadULong_of_cells pf _ (n + 4) h c0 c1 c2 c3

/-- C1 at the payload `PING`: `VGetSize()` is 8. -/
theorem C1_size_round_trip_witness :
    4 + 4 < 4294967296 ∧ (BinaryPacket.ofData win32Debug heapCD pingPtr 4).VGetSize win32Debug = 4 + 4 :=
  ⟨by decide, C1_size_round_trip win32Debug heapCD pingPtr 4 (by decide)⟩

/-- C3 (wire layout): for a payload of `n` bytes with `n + 4 < 2^32`, the array built by
`BinaryPacket(data, n)` is `n + 4` bytes long and holds the big-endian encoding of
`n + 4` in its first four bytes, followed by the `n` payload bytes in order. -/
theorem C3_wire_layout (pf : Platform) (heap : Int → Byte) (data : CharPtr) (n : Nat)
    (h : n + 4 < 4294967296) :
    (BinaryPacket.ofData pf heap data n).m_data.len = n + 4 ∧
    (BinaryPacket.ofData pf heap data n).m_data.bytes = bigEndian4 (n + 4) ++ bytesAt data n := by
  obtain ⟨hl, c0, c1, c2, c3, cp⟩ := ofData_cells pf heap data n h
  refine ⟨hl, ?_⟩
  apply List.ext_getElem
  · simp [hl, bigEndian4, bytesAt]
  · intro i h1 h2
    rw [bytes_getElem]
    by_cases hi : i < 4
    · rw [List.getElem_append_left (by simpa [bigEndian4] using hi)]
      have : i = 0 ∨ i = 1 ∨ i = 2 ∨ i = 3 := by omega
      rcases this with rfl | rfl | rfl | rfl
      · simpa [bigEndian4] using c0
      · simpa [bigEndian4] using c1
      · simpa [bigEndian4] using c2
      · simpa [bigEndian4] using c3
    · rw [List.getElem_append_right (by simpa [bigEndian4] using (by omega : 4 ≤ i))]
      have hlen : i < n + 4 := by simpa [hl] using h1
      have := cp (i - 4) (by omega)
      have e : ((4 + (i - 4) : Nat) : Int) = (i : Int) := by omega
      rw [e] at this
      simp [bytesAt, bigEndian4, this]

/-- C3 at the payload `PING`: the array is `00 00 00 08 'P' 'I' 'N' 'G'`. -/
theorem C3_wire_layout_witness :
    4 + 4 < 4294967296 ∧
    (BinaryPacket.ofData win32Debug heapCD pingPtr 4).m_data.len = 8 ∧
    (BinaryPacket.ofData win32Debug heapCD pingPtr 4).m_data.bytes
      = [0, 0, 0, 8, 80, 73, 78, 71] :=
  ⟨by decide, C3_wire_layout win32Debug heapCD pingPtr 4 (by decide)⟩

/-- C6 (size-only construction): for `n + 4 < 2^32`, `BinaryPacket(n)` gives a packet
whose `VGetSize()` is `n + 4` and whose payload cells `4 .. n+3` are all zero. -/
theorem C6_size_only_construction (pf : Platform) (heap : Int → Byte) (n : Nat)
    (h : n + 4 < 4294967296) :
    (BinaryPacket.ofSize pf heap n).VGetSize pf = n + 4 ∧
    (BinaryPacket.ofSize pf heap n).m_data.len = n + 4 ∧
    ∀ j : Int, 4 ≤ j → j ≤ (n : Int) + 3 → (BinaryPacket.ofSize pf heap n).m_data.cell j = 0 := by
  obtain ⟨hl, c0, c1, c2, c3, cp⟩ := ofSize_cells pf heap n h
  refine ⟨ntohl_loadULong_of_cells pf _ (n + 4) h c0 c1 c2 c3, hl, ?_⟩
  intro j h1 h2
  have := cp (j - 4).toNat (by omega)
  have e : ((4 + (j - 4).toNat : Nat) : Int) = j := by omega
  rwa [e] at this

/-- C6 at `n = 8`: the declared size is 12 and the eight payload cells are zero. -/
theorem C6_size_only_construction_witness :
    8 + 4 < 4294967296 ∧
    (BinaryPacket.ofSize win32Debug heapCD 8).VGetSize win32Debug = 8 + 4 ∧
    (BinaryPacket.ofSize win32Debug heapCD 8).m_data.len = 8 + 4 ∧
    ∀ j : Int, 4 ≤ j → j ≤ ((8 : Nat) : Int) + 3 →
      (BinaryPacket.ofSize win32Debug heapCD 8).m_data.cell j = 0 :=
  ⟨by decide, C6_size_only_construction win32Debug heapCD 8 (by decide)⟩

/-- C2, as stated, fails at the payload `PING`: the bytes read through `VGetData()` start
with the length `00 00 00 08`, and `PING` only follows them. -/
theorem C2_data_is_whole_frame :
    bytesAt (BinaryPacket.ofData win32Debug heapCD pingPtr 4).VGetData 4 = [0, 0, 0, 8] ∧
    bytesAt (BinaryPacket.ofData win32Debug heapCD pingPtr 4).VGetData 8
      = [0, 0, 0, 8, 80, 73, 78, 71] ∧
    bytesAt pingPtr 4 = [80, 73, 78, 71] ∧
    bytesAt (BinaryPacket.ofData win32Debug heapCD pingPtr 4).VGetData 4 ≠ bytesAt pingPtr 4 := by
  decide

/-- C2 (amended): for a payload of `n` bytes with `n + 4 < 2^32`, `VGetData()` of the packet
built by `BinaryPacket(data, n)` points at the start of the frame: the `n + 4` bytes read
through it are the big-endian length `n + 4` followed by the payload, so the payload is
the `n` bytes found four bytes after the returned pointer. -/
theorem C2_data_round_trip_at_offset (pf : Platform) (heap : Int → Byte) (data : CharPtr)
    (n : Nat) (h : n + 4 < 4294967296) :
    bytesAt (BinaryPacket.ofData pf heap data n).VGetData 4 = bigEndian4 (n + 4) ∧
    bytesAt (fun i => (BinaryPacket.ofData pf heap data n).VGetData (4 + i)) n
      = bytesAt data n := by
  obtain ⟨_, c0, c1, c2, c3, cp⟩ := ofData_cells pf heap data n h
  constructor
  · have e : bytesAt (BinaryPacket.ofData pf heap data n).VGetData 4
        = [(BinaryPacket.ofData pf heap data n).m_data.cell 0,
           (BinaryPacket.ofData pf heap data n).m_data.cell 1,
           (BinaryPacket.ofData pf heap data n).m_data.cell 2,
           (BinaryPacket.ofData pf heap data n).m_data.cell 3] := rfl
    rw [e, c0, c1, c2, c3]
    rfl
  · apply List.ext_getElem
    · simp [bytesAt]
    · intro i h1 _
      have hi : i < n := by simpa [bytesAt] using h1
      have := cp i hi
      simp only [bytesAt, List.getElem_map, List.getElem_range, BinaryPacket.VGetData, Block.ptr]
      rw [← this]
      congr 2
      omega

/-- C2 (amended) at the payload `PING`. -/
theorem C2_data_round_trip_at_offset_witness :
    4 + 4 < 4294967296 ∧
    bytesAt (BinaryPacket.ofData win32Debug heapCD pingPtr 4).VGetData 4 = [0, 0, 0, 8] ∧
    bytesAt (fun i => (BinaryPacket.ofData win32Debug heapCD pingPtr 4).VGetData (4 + i)) 4
      = [80, 73, 78, 71] :=
  ⟨by decide, C2_data_round_trip_at_offset win32Debug heapCD pingPtr 4 (by decide)⟩

/-- C5, as stated, fails at the sizes 0 and 3: the constructor makes no check and gives
a well-formed packet, of declared size 4 and 7. -/
theorem C5_small_size_accepted :
    (BinaryPacket.ofData win32Debug heapCD pingPtr 0).m_data.bytes = [0, 0, 0, 4] ∧
    (BinaryPacket.ofData win32Debug heapCD pingPtr 0).VGetSize win32Debug = 4 ∧
    (BinaryPacket.ofData win32Debug heapCD pingPtr 3).m_data.bytes = [0, 0, 0, 7, 80, 73, 78] ∧
    (BinaryPacket.ofData win32Debug heapCD pingPtr 3).VGetSize win32Debug = 7 := by
  decide

/-- C5 (amended): construction from raw bytes and a size makes no size check; the size
counts payload bytes only, so for every size below 4 (as for every other size) the
constructor gives a packet of `size + 4` bytes whose declared size `size + 4` is at least
the width of the length field. -/
theorem C5_construction_accepts_small_sizes (pf : Platform) (heap : Int → Byte)
    (data : CharPtr) (n : Nat) (h : n < 4) :
    (BinaryPacket.ofData pf heap data n).m_data.len = n + 4 ∧
    (BinaryPacket.ofData pf heap data n).VGetSize pf = n + 4 ∧
    4 ≤ (BinaryPacket.ofData pf heap data n).VGetSize pf := by
  have h4 : n + 4 < 4294967296 := by omega
  obtain ⟨hl, c0, c1, c2, c3, _⟩ := ofData_cells pf heap data n h4
  have hv := ntohl_loadULong_of_cells pf _ (n + 4) h4 c0 c1 c2 c3
  refine ⟨hl, hv, ?_⟩
  unfold BinaryPacket.VGetSize
  omega

/-- C5 (amended) at the size 0. -/
theorem C5_construction_accepts_small_sizes_witness :
    0 < 4 ∧
    (BinaryPacket.ofData win32Debug heapCD pingPtr 0).m_data.len = 0 + 4 ∧
    (BinaryPacket.ofData win32Debug heapCD pingPtr 0).VGetSize win32Debug = 0 + 4 ∧
    4 ≤ (BinaryPacket.ofData win32Debug heapCD pingPtr 0).VGetSize win32Debug :=
  ⟨by decide, C5_construction_accepts_small_sizes win32Debug heapCD pingPtr 0 (by decide)⟩

/-- C7 (HTTP accessors): for an `HTTPPacket` whose array is a 4-byte placeholder `ph`
followed by a text `T` without zero byte and a terminating zero, `VGetData()` points at
`T` (the `T.length` bytes read through it are `T`, and the next one is the terminator)
and `VGetSize()` is the byte length of `T`, whatever the placeholder holds.  The array is
one that a `BinaryPacket` constructor can allocate: at most `2^32 - 1 + 4` chars. -/
theorem C7_http_accessors (pf : Platform) (p : HTTPPacket) (ph T : List Byte)
    (hph : ph.length = 4) (hT : ∀ b ∈ T, b ≠ 0) (halloc : p.m_data.len ≤ 4294967299)
    (hbuf : p.m_data.bytes = ph ++ T ++ [0]) :
    bytesAt p.VGetData T.length = T ∧ p.VGetData T.length = 0 ∧
    p.VGetSize pf = some T.length := by
  have hL : p.m_data.len = 4 + T.length + 1 := by
    rw [← bytes_length, hbuf]
    simp only [List.length_append, List.length_singleton, hph]
  have hlen : T.length < 4294967296 := by omega
  have hcell : ∀ i : Nat, i < T.length + 1 → (T ++ [0])[i]? = some (p.m_data.ptr 4 i) := by
    intro i h
    have e1 := bytes_getElem_opt p.m_data (4 + i) (by omega)
    rw [hbuf, List.append_assoc, List.getElem?_append_right (by omega), hph,
      Nat.add_sub_cancel_left] at e1
    exact e1
  have hnz : ∀ j, j < T.length → p.m_data.ptr 4 (0 + j) ≠ 0 := by
    intro j hj
    have e := hcell j (by omega)
    rw [List.getElem?_append_left hj, List.getElem?_eq_getElem hj] at e
    rw [Nat.zero_add, ← Option.some.inj e]
    exact hT _ (List.getElem_mem _)
  have hz : p.m_data.ptr 4 (0 + T.length) = 0 := by
    have e := hcell T.length (by omega)
    rw [List.getElem?_append_right (Nat.le_refl _), Nat.sub_self] at e
    rw [Nat.zero_add, ← Option.some.inj e]
    rfl
  refine ⟨?_, ?_, ?_⟩
  · apply List.ext_getElem?
    intro i
    by_cases hi : i < T.length
    · have e := hcell i (by omega)
      rw [List.getElem?_append_left hi] at e
      rw [e]
      simp [bytesAt, hi, HTTPPacket.VGetData]
    · rw [List.getElem?_eq_none (by simpa [bytesAt] using hi),
        List.getElem?_eq_none (by omega)]
  · simpa [HTTPPacket.VGetData] using hz
  · have hs := strlenFrom_first_zero (p.m_data.ptr 4) T.length 0 pf.sizeMod hnz hz
      (by have := sizeMod_ge pf; omega)
    simp only [HTTPPacket.VGetSize, strlen, hs, Nat.zero_add, Option.map_some', ulongMod,
      Nat.mod_eq_of_lt hlen]

/-- C7 at the text `OK` behind the placeholder `DE AD BE EF`. -/
theorem C7_http_accessors_witness :
    bytesAt httpOk.VGetData 2 = [79, 75] ∧ httpOk.VGetData 2 = 0 ∧
    httpOk.VGetSize win32Debug = some 2 :=
  C7_http_accessors win32Debug httpOk [222, 173, 190, 239] [79, 75] (by decide)
    (by simp) (by decide) (by decide)

/-- C8, as stated, fails at the clock value `2^32 - 1`: the sum wraps in `unsigned int`,
the deadline 44999 is earlier than the clock, and the clock value itself, which is
before `t + 45000`, is already at or past the deadline. -/
theorem C8_deadline_wraps :
    (sampleSocket.SetTimeOutDefault 4294967295).m_timeout = 44999 ∧
    (sampleSocket.SetTimeOutDefault 4294967295).m_timeout < 4294967295 ∧
    ¬ (∀ u : Nat, u < 4294967295 + 45000 →
        ¬ (sampleSocket.SetTimeOutDefault 4294967295).m_timeout ≤ u) := by
  refine ⟨by decide, by decide, ?_⟩
  intro h
  exact h 4294967295 (by decide) (by decide)

/-- C8 (amended): when `t + ms` is below `2^32`, `SetTimeOut(ms)` called at the clock value
`t` sets the deadline to `t + ms`, which is not earlier than `t`, and no time before
`t + ms` is at or past it; `SetTimeOut()` is `SetTimeOut(45000)`; no other member
changes. -/
theorem C8_timeout_rearm (s : NetSocket) (t ms : Nat) (h : t + ms < 4294967296) :
    (s.SetTimeOut t ms).m_timeout = t + ms ∧
    t ≤ (s.SetTimeOut t ms).m_timeout ∧
    (∀ u : Nat, u < t + ms → ¬ (s.SetTimeOut t ms).m_timeout ≤ u) ∧
    s.SetTimeOutDefault t = s.SetTimeOut t 45000 ∧
    s.SetTimeOut t ms = { s with m_timeout := t + ms } := by
  have e : (s.SetTimeOut t ms).m_timeout = t + ms := by
    simp only [NetSocket.SetTimeOut]
    exact Nat.mod_eq_of_lt h
  refine ⟨e, by omega, ?_, rfl, ?_⟩
  · intro u hu
    omega
  · simp only [NetSocket.SetTimeOut, Nat.mod_eq_of_lt h]

/-- C8 (amended) at the clock value 1000 with the default duration. -/
theorem C8_timeout_rearm_witness :
    (sampleSocket.SetTimeOut 1000 45000).m_timeout = 1000 + 45000 ∧
    1000 ≤ (sampleSocket.SetTimeOut 1000 45000).m_timeout ∧
    (∀ u : Nat, u < 1000 + 45000 → ¬ (sampleSocket.SetTimeOut 1000 45000).m_timeout ≤ u) ∧
    sampleSocket.SetTimeOutDefault 1000 = sampleSocket.SetTimeOut 1000 45000 ∧
    sampleSocket.SetTimeOut 1000 45000 = { sampleSocket with m_timeout := 1000 + 45000 } :=
  C8_timeout_rearm sampleSocket 1000 45000 (by decide)

/-- C9 (removal flag is sticky): `HandleException` leaves the removal flag non-zero with
every bit that was set still set, applying it twice is applying it once, and none of
`HandleException`, `SetTimeOut`, `VTimeOut`, `VHasOutput` turns a non-zero removal flag
into zero. -/
theorem C9_removal_flag_sticky (s : NetSocket) (t ms : Nat) :
    s.HandleException.m_delete_flag ≠ 0 ∧
    (∀ i : Nat, s.m_delete_flag.testBit i = true →
      s.HandleException.m_delete_flag.testBit i = true) ∧
    s.HandleException.HandleException = s.HandleException ∧
    (s.m_delete_flag ≠ 0 →
      s.HandleException.m_delete_flag ≠ 0 ∧
      (s.SetTimeOut t ms).m_delete_flag ≠ 0 ∧
      (s.SetTimeOutDefault t).m_delete_flag ≠ 0 ∧
      s.VTimeOut.m_delete_flag ≠ 0 ∧
      s.VHasOutput.2.m_delete_flag ≠ 0) := by
  refine ⟨lor_one_ne_zero _, ?_, ?_, ?_⟩
  · intro i hi
    simp only [NetSocket.HandleException, Int.testBit_lor, hi, Bool.true_or]
  · simp only [NetSocket.HandleException, lor_one_lor_one]
  · intro hs
    refine ⟨lor_one_ne_zero _, ?_, ?_, ?_, ?_⟩ <;>
      simpa only [NetSocket.SetTimeOut, NetSocket.SetTimeOutDefault, NetSocket.VTimeOut,
        NetSocket.VHasOutput] using hs

/-- C9 at a connection whose removal flag is 2: the flag becomes 3 and stays non-zero
under every inline operation. -/
theorem C9_removal_flag_sticky_witness :
    sampleSocket.m_delete_flag ≠ 0 ∧
    sampleSocket.HandleException.m_delete_flag ≠ 0 ∧
    (sampleSocket.SetTimeOut 1000 45000).m_delete_flag ≠ 0 ∧
    (sampleSocket.SetTimeOutDefault 1000).m_delete_flag ≠ 0 ∧
    sampleSocket.VTimeOut.m_delete_flag ≠ 0 ∧
    sampleSocket.VHasOutput.2.m_delete_flag ≠ 0 :=
  ⟨by decide, (C9_removal_flag_sticky sampleSocket 1000 45000).2.2.2 (by decide)⟩

/-- C4, as stated, fails.  In a build with `NDEBUG` nothing is checked: on a packet with
4 payload bytes, `MemCpy(data, 6, 0)` returns after writing the payload cell 4 and the
cell 9, which lies behind the 8-byte array.  In a build with assertions, the sum is
taken modulo `2^32`: `MemCpy(data, 0xFFFFFFFF, 2)` passes the check and does not stop. -/
theorem C4_patch_not_rejected :
    (((BinaryPacket.ofSize win32Release heapCD 4).VGetSize win32Release : Nat) : Int) - 4
      < 0 + ((6 : Nat) : Int) ∧
    (∃ q, (BinaryPacket.ofSize win32Release heapCD 4).MemCpy win32Release
        PacketClass.binaryPacket onesPtr 6 0 = Outcome.returned q ∧
      q.m_data.len = 8 ∧
      (BinaryPacket.ofSize win32Release heapCD 4).m_data.cell 4 = 0 ∧ q.m_data.cell 4 = 255 ∧
      (BinaryPacket.ofSize win32Release heapCD 4).m_data.cell 9 = 205 ∧
      q.m_data.cell 9 = 255) ∧
    (((BinaryPacket.ofSize win32Debug heapCD 4).VGetSize win32Debug : Nat) : Int) - 4
      < 2 + ((4294967295 : Nat) : Int) ∧
    (∃ q, (BinaryPacket.ofSize win32Debug heapCD 4).MemCpy win32Debug
        PacketClass.binaryPacket onesPtr 4294967295 2 = Outcome.returned q) := by
  refine ⟨by decide, ⟨_, rfl, by decide, by decide, by decide, by decide, by decide⟩,
    by decide, ?_⟩
  have hc : (BinaryPacket.ofSize win32Debug heapCD 4).memCpyCheck win32Debug
      PacketClass.binaryPacket 4294967295 2 = some true := by decide
  have hn : ¬ (win32Debug.ndebug = true) := by decide
  refine ⟨⟨memcpy (BinaryPacket.ofSize win32Debug heapCD 4).m_data
    (2 + (sizeofULong : Int)) onesPtr 4294967295⟩, ?_⟩
  unfold BinaryPacket.MemCpy
  rw [if_neg hn, hc]

/-- C4 (amended): in a build with assertions (`NDEBUG` not defined), for a packet object of
any class (`BinaryPacket`, `TextPacket`, `HTTPPacket`) whose virtual `VGetSize()` returns a
value `v` of at least 4, and a call `MemCpy(data, size, destOffset)` whose exact sum
`size + destOffset` is below `2^w` (`w` the width of `size_t`) and exceeds `v - 4`, the
assertion fails: the call stops there, before `memcpy`, and no byte is written. -/
theorem C4_patch_bounds_assert (pf : Platform) (c : PacketClass) (p : BinaryPacket)
    (data : CharPtr) (size : Nat) (destOffset : Int) (v : Nat) (hdbg : pf.ndebug = false)
    (hv : virtualVGetSize pf c p = some v) (hsz : 4 ≤ v)
    (hfit : (size : Int) + destOffset < (pf.sizeMod : Int))
    (hbad : (v : Int) - 4 < destOffset + (size : Int)) :
    p.MemCpy pf c data size destOffset = Outcome.assertFailed := by
  have hc : p.memCpyCheck pf c size destOffset = some false := by
    rw [memCpyCheck_exact pf c p size destOffset v hv hsz (by omega) hfit]
    congr 1
    exact decide_eq_false (by omega)
  have hn : ¬ (pf.ndebug = true) := by simp [hdbg]
  unfold BinaryPacket.MemCpy
  rw [if_neg hn, hc]

/-- C4 (amended) on an `HTTPPacket` whose text is 8 characters long behind a placeholder
that decodes to 12: `MemCpy(data, 5, 0)` stops at the assertion. -/
theorem C4_patch_bounds_assert_witness :
    httpEight.toBinaryPacket.MemCpy win32Debug PacketClass.httpPacket onesPtr 5 0
      = Outcome.assertFailed :=
  C4_patch_bounds_assert win32Debug PacketClass.httpPacket httpEight.toBinaryPacket onesPtr 5 0 8
    (by decide) (by decide) (by decide) (by decide) (by decide)

/-- C10 fails in the code at a negative offset.  On the packet `BinaryPacket(8)`, declared
size 12, the call `MemCpy(data, 5, -3)` passes the check (`5 + (size_t)(-3)` is 2) and
`memcpy` starts at `m_data + 1`: it overwrites three bytes of the length field, and
`VGetSize()` becomes `0x00FFFFFF`. -/
theorem C10_negative_offset_overwrites_length :
    (BinaryPacket.ofSize win32Debug heapCD 8).m_data.bytes
      = [0, 0, 0, 12, 0, 0, 0, 0, 0, 0, 0, 0] ∧
    (BinaryPacket.ofSize win32Debug heapCD 8).VGetSize win32Debug = 12 ∧
    virtualVGetSize win32Debug PacketClass.binaryPacket (BinaryPacket.ofSize win32Debug heapCD 8)
      = some 12 ∧
    (BinaryPacket.ofSize win32Debug heapCD 8).memCpyCheck win32Debug PacketClass.binaryPacket
      5 (-3) = some true ∧
    ∃ q, (BinaryPacket.ofSize win32Debug heapCD 8).MemCpy win32Debug PacketClass.binaryPacket
        onesPtr 5 (-3) = Outcome.returned q ∧
      q.m_data.bytes = [0, 255, 255, 255, 255, 255, 0, 0, 0, 0, 0, 0] ∧
      q.VGetSize win32Debug = 16777215 ∧
      virtualVGetSize win32Debug PacketClass.binaryPacket q = some 16777215 :=
  ⟨by decide, by decide, by decide, by decide, _, rfl, by decide, by decide, by decide⟩

end GameServer
